import Mathlib

/-!
Verification development for the music-fingerprint library (fplib.c / fplib.h
and the GiST support module pgfprint.c).

Modelling conventions.

* Machine integers are modelled as `Nat` carrying the 32-bit (or 8-bit) value;
  wrap-around is written explicitly with `% 2 ^ 32` where the C code can wrap.
* The byte arrays `r[348]` and `dom[66]` are modelled as `List Nat` of byte
  values.  The C kernels read them through `uint32_t *` (plus one `uint16_t`
  tail for `dom`), but every operation they perform (XOR, AND, OR, popcount,
  2-bit-lane weighting) distributes over the byte decomposition independently
  of endianness, so the byte-level model computes the same numbers:
  - the Hamming weight of a 32-bit word is the sum of the Hamming weights of
    its 4 bytes, so `pop32`-over-words sums equal `pop8`-over-bytes sums;
  - the sixteen 2-bit lanes of a word are exactly the four 2-bit lanes of each
    of its 4 bytes, so the `rdiff_fooid32` lane histogram over words equals
    the lane histogram over bytes.
* `cprint` is a `List Nat` of 32-bit patterns (`< 2 ^ 32`); the text codec
  prints a pattern `p` as the signed value `%d` prints for an `int32_t` whose
  bit pattern is `p`.
* The C `cprint_len` field always equals the length of the `cprint` buffer in
  every record the library builds, so the model identifies `cprint_len` with
  `cprint.length`.
* Floating point (`float` / `double`) arithmetic is modelled exactly over `ℚ`.
  The spec itself states that reproduction of floating-point output to the
  last ULP is a non-goal and that the cut-offs are the contract; every
  (in)equality proved or refuted below holds with a margin that dwarfs
  double rounding error.
-/

set_option maxRecDepth 40000

namespace MusicFP

/-- Fingerprint record (`FPrint` in fplib.h).  Field order follows the C
struct; `cprint_len` is `cprint.length`. -/
structure FPrint where
  songlen : Nat
  bit_rate : Nat
  num_errors : Nat
  r : List Nat
  dom : List Nat
  cprint : List Nat
deriving DecidableEq, Repr

/-- Union (node) key (`FPrintUnion` in fplib.h).  Shares the binary layout of
`FPrint`: `min_songlen` overlays `songlen` and `max_songlen` overlays
`num_errors`. -/
structure FPrintUnion where
  min_songlen : Nat
  bit_rate : Nat
  max_songlen : Nat
  r : List Nat
  dom : List Nat
  cprint : List Nat
deriving DecidableEq, Repr

instance : Inhabited FPrint := ⟨⟨0, 0, 0, [], [], []⟩⟩

/-- A valid fingerprint record: fixed widths `|r| = 348`, `|dom| = 66`,
byte-valued entries, at least one 32-bit codeword, 32-bit header fields. -/
def validFP (fp : FPrint) : Prop :=
  fp.r.length = 348 ∧ (∀ x ∈ fp.r, x < 256) ∧
  fp.dom.length = 66 ∧ (∀ x ∈ fp.dom, x < 256) ∧
  1 ≤ fp.cprint.length ∧ (∀ x ∈ fp.cprint, x < 2 ^ 32) ∧
  fp.songlen < 2 ^ 32 ∧ fp.bit_rate < 2 ^ 32 ∧ fp.num_errors < 2 ^ 32

instance (fp : FPrint) : Decidable (validFP fp) := by
  unfold validFP; infer_instance

/-! ### Bit operations (fplib.c `pop32`, `pop16`, `rdiff_fooid32`,
`cmp_low_bit`) -/

/-- Hamming weight of the low `w` bits; `pop32`/`pop16` in fplib.c compute
this for their word size via the parallel-bit trick. -/
def popBelow (w x : Nat) : Nat :=
  ((List.range w).map (fun i => x / 2 ^ i % 2)).sum

/-- `pop32` of fplib.c on a value `< 2 ^ 32`. -/
def pop32 (x : Nat) : Nat := popBelow 32 x

/-- Hamming weight of one byte; summing it over the 66 `dom` bytes equals the
C sum of sixteen `pop32` words plus the `pop16` tail. -/
def pop8 (x : Nat) : Nat := popBelow 8 x

/-- Weight of one 2-bit lane value, matching the combination
`rdiff[1] + 4*rdiff[2] + 9*rdiff[3]` applied to the `rdiff_fooid32`
histogram. -/
def laneWeight : Nat → Nat
  | 0 => 0
  | 1 => 1
  | 2 => 4
  | _ => 9

/-- Total lane weight of the four 2-bit lanes of one byte.  Summing this over
the 348 bytes of an XOR'd `r` vector equals the C combination of the
`rdiff_fooid32` histogram over the 87 32-bit words. -/
def byteRWeight (b : Nat) : Nat :=
  laneWeight (b % 4) + laneWeight (b / 4 % 4) +
  laneWeight (b / 16 % 4) + laneWeight (b / 64 % 4)

/-- Value of the lowest set bit of a 32-bit word: `x & (-x)` in C, with the
unary minus taken modulo `2 ^ 32`. -/
def lowBit (x : Nat) : Nat :=
  x &&& ((2 ^ 32 - x % 2 ^ 32) % 2 ^ 32)

/-- `cmp_low_bit` (fplib.c:704): 1 iff the lowest set bits of `x` and `y`
coincide, i.e. `(x & -x) == (y & -y)`. -/
def cmp_low_bit (x y : Nat) : Nat :=
  if lowBit x = lowBit y then 1 else 0

/-- The per-codeword test of the union matchers:
`(x == (x & y)) || cmp_low_bit(x, y)` summed as 0/1. -/
def covLow (x y : Nat) : Nat :=
  if x = x &&& y ∨ lowBit x = lowBit y then 1 else 0

/-- `MAX_TOTDIFF = 9 * 348 * 8 + 66 * 8`. -/
def MAX_TOTDIFF : Nat := 9 * 348 * 8 + 66 * 8

/-- Word read `l[i]` used where the C code indexes a 32-bit array. -/
def w32 (l : List Nat) (i : Nat) : Nat := l.getD i 0

/-! ### Similarity kernels (fplib.c) -/

/-- The cubic combiner shared by `match_cpfm`, `match_fprint_merge`,
`match_merges` and `try_match_merges` (fplib.c:869 etc.); the empirical
constants are part of the contract. -/
def fpComb (fooid chroma : ℚ) : ℚ :=
  ((0.012985 + 0.263439 * fooid + (-0.683234) * chroma
      + 1.592623 * (chroma * chroma * chroma)) + 0.06348) / 1.2489

/-- `fmaxf(fminf(v, 1.0), 0.0)`. -/
def clamp01 (v : ℚ) : ℚ := max (min v 1) 0

/-- `match_fooid_fp` (fplib.c:569): weighted `r` distance plus `dom` Hamming
distance, scaled and clamped through the confidence curve. -/
def match_fooid_fp (r_a dom_a r_b dom_b : List Nat) : ℚ :=
  let diff_r := (List.zipWith (fun x y => byteRWeight (x ^^^ y)) r_a r_b).sum
  let diff_dom := (List.zipWith (fun x y => pop8 (x ^^^ y)) dom_a dom_b).sum
  let perc : ℚ := ((diff_r + diff_dom : Nat) : ℚ) / (MAX_TOTDIFF : ℚ)
  let conf : ℚ := ((1 - perc) - 0.5) * 2
  clamp01 conf

/-- `match_chromab` (fplib.c:709): count positions of the common prefix whose
lowest set bit coincides; the unrolled loop plus remainder loop cover exactly
the first `min |cp1| |cp2|` codewords. -/
def match_chromab (cp1 cp2 : List Nat) : ℚ :=
  let maxsize := min cp1.length cp2.length
  let sm := (List.zipWith cmp_low_bit cp1 cp2).sum
  if maxsize = 0 then 0
  else if sm = 0 then 0
  else (sm : ℚ) / ((max cp1.length cp2.length : Nat) : ℚ)

/-- `match_cpfm` (fplib.c:853): songlen gate, then the cubic combination of
`match_fooid_fp` and `match_chromab`.  NOTE: the combiner value is returned
as computed, without a final clamp (unlike `match_fprint_merge` and
`match_merges`). -/
def match_cpfm (a b : FPrint) : ℚ :=
  let sl_a : ℚ := (a.songlen : ℚ)
  let sl_b : ℚ := (b.songlen : ℚ)
  if |sl_a - sl_b| > 0.1 * min sl_a sl_b then 0
  else
    let fm := match_fooid_fp a.r a.dom b.r b.dom
    let cp := match_chromab a.cprint b.cprint
    fpComb fm cp

/-- `FP_ISEQ` (fplib.h:100): `val > 0.98`. -/
def FP_ISEQ (val : ℚ) : Bool := decide ((0.98 : ℚ) < val)

/-- `match_chromat` (fplib.c:780), modelled exactly as written.  The unrolled
loop runs `i = 0, 4, 8, ...` while `i < end` with `end = maxsize / 4`, so it
executes `T = (end + 3) / 4` times; at its `t`-th execution the four source
pointers have already advanced `4 * t` words, hence the indexed reads
`cp1_32[i] .. cp1_32[i+3]` for the `&`-sums touch words `8t .. 8t+3` while
the post-incremented `|`-sums touch words `4t .. 4t+3`.  The remainder loop
starts at word `p = 4 * T` and ASSIGNS (`tdiff = ...`, not `+=`) the
`&`-popcount of each remaining word, so only the last one survives. -/
def match_chromat (cp1 cp2 : List Nat) : ℚ :=
  let maxsize := min cp1.length cp2.length
  let endv := maxsize / 4
  let rem := maxsize % 4
  let T := (endv + 3) / 4
  let tdiff0 := ((List.range T).map (fun t =>
    pop32 (w32 cp1 (8 * t) &&& w32 cp2 (8 * t)) +
    pop32 (w32 cp1 (8 * t + 1) &&& w32 cp2 (8 * t + 1)) +
    pop32 (w32 cp1 (8 * t + 2) &&& w32 cp2 (8 * t + 2)) +
    pop32 (w32 cp1 (8 * t + 3) &&& w32 cp2 (8 * t + 3)))).sum
  let tcomm0 := ((List.range T).map (fun t =>
    pop32 (w32 cp1 (4 * t) ||| w32 cp2 (4 * t)) +
    pop32 (w32 cp1 (4 * t + 1) ||| w32 cp2 (4 * t + 1)) +
    pop32 (w32 cp1 (4 * t + 2) ||| w32 cp2 (4 * t + 2)) +
    pop32 (w32 cp1 (4 * t + 3) ||| w32 cp2 (4 * t + 3)))).sum
  let p := 4 * T
  let tdiff := if rem = 0 then tdiff0
    else pop32 (w32 cp1 (p + rem - 1) &&& w32 cp2 (p + rem - 1))
  let tcomm := tcomm0 +
    ((List.range rem).map (fun j =>
      pop32 (w32 cp1 (p + j) ||| w32 cp2 (p + j)))).sum
  if maxsize = 0 then 0
  else if tdiff = 0 then 1
  else if tcomm = 0 then 0
  else (tdiff : ℚ) / (tcomm : ℚ)

/-- The Tanimoto score as the spec (and the claim C9, and the code's own
comment) describe `match_chromat`: `tdiff = Σ popcount(cp1[i] & cp2[i])` and
`tcomm = Σ popcount(cp1[i] | cp2[i])` over the compared prefix, result
`tdiff / tcomm` with `tcomm = 0 → 0` and `tdiff = 0 → 1`.  Kept separate from
the source model above for comparison. -/
def match_chromat_spec (cp1 cp2 : List Nat) : ℚ :=
  let tdiff := (List.zipWith (fun x y => pop32 (x &&& y)) cp1 cp2).sum
  let tcomm := (List.zipWith (fun x y => pop32 (x ||| y)) cp1 cp2).sum
  if tcomm = 0 then 0
  else if tdiff = 0 then 1
  else (tdiff : ℚ) / (tcomm : ℚ)

/-! ### Union (node-key) operations (fplib.c) -/

/-- OR the words of `a` into the first `a.length` slots of `u`, leaving the
rest of `u` unchanged: the `cp_u[l] |= cp_a[l], l < a->cprint_len` loops of
`fprint_merge_one` / `fprint_merge_one_union`.  (The C code requires the `u`
buffer to be at least as long as `a`; on a shorter `u` this model simply
stops at `u`'s end.) -/
def orInto : List Nat → List Nat → List Nat
  | u, [] => u
  | [], _ => []
  | x :: us, y :: as2 => (x ||| y) :: orInto us as2

/-- `fprint_merge_one` (fplib.c:925): OR one record into a union key and
extend the `songlen` envelope.  Note the `min_songlen` update keeps the old
value only when it is positive; a zero `min_songlen` is overwritten by
`a.songlen`. -/
def fprint_merge_one (u : FPrintUnion) (a : FPrint) : FPrintUnion :=
  { min_songlen :=
      if 0 < u.min_songlen then min u.min_songlen a.songlen else a.songlen
    bit_rate := u.bit_rate
    max_songlen := max u.max_songlen a.songlen
    r := List.zipWith (fun x y => x ||| y) u.r a.r
    dom := List.zipWith (fun x y => x ||| y) u.dom a.dom
    cprint := orInto u.cprint a.cprint }

/-- `match_merges` (fplib.c:1059): zero on disjoint `songlen` envelopes, else
the cubic combination of the coverage-of-`u1`-by-`u2` fooid score and the
coverage/low-bit chroma score; note both difference sums and the final
division by `u1->cprint_len` read the two arguments asymmetrically. -/
def match_merges (u1 u2 : FPrintUnion) : ℚ :=
  if u1.max_songlen < u2.min_songlen ∨ u2.max_songlen < u1.min_songlen then 0
  else
    let diff_r := (List.zipWith
      (fun x y => byteRWeight (x ^^^ (x &&& y))) u1.r u2.r).sum
    let diff_dom := (List.zipWith
      (fun x y => pop8 (x ^^^ (x &&& y))) u1.dom u2.dom).sum
    let perc : ℚ := ((diff_r + diff_dom : Nat) : ℚ) / (MAX_TOTDIFF : ℚ)
    let conf : ℚ := ((1 - perc) - 0.5) * 2
    let fooid := clamp01 conf
    let cp_len := min u1.cprint.length u2.cprint.length
    let diff_cp := (List.zipWith covLow u1.cprint u2.cprint).sum
    let chroma : ℚ :=
      if 0 < cp_len then (diff_cp : ℚ) / ((u1.cprint.length : Nat) : ℚ) else 0
    clamp01 (fpComb fooid chroma)

/-- `try_match_merges` (fplib.c:1118): score of `u1` against `u2`-as-if-`a`
were merged into it; every `u2` word is read OR'd with the matching `a`
word.  The two tail loops extend the chroma count when `u1` is longer than
the three-way minimum and either `a` or `u2` still has words there, exactly
as in the source (including the update of `cp_len` used by the
`cp_len > 0` guard). -/
def try_match_merges (u1 u2 : FPrintUnion) (a : FPrint) : ℚ :=
  let diff_r := (List.zipWith3
    (fun x y z => byteRWeight (x ^^^ (x &&& (y ||| z)))) u1.r u2.r a.r).sum
  let diff_dom := (List.zipWith3
    (fun x y z => pop8 (x ^^^ (x &&& (y ||| z)))) u1.dom u2.dom a.dom).sum
  let perc : ℚ := ((diff_r + diff_dom : Nat) : ℚ) / (MAX_TOTDIFF : ℚ)
  let conf : ℚ := ((1 - perc) - 0.5) * 2
  let fooid := clamp01 conf
  let l1 := u1.cprint.length
  let l2 := u2.cprint.length
  let la := a.cprint.length
  let cp_len := min (min l1 l2) la
  let d0 := ((List.range cp_len).map (fun k =>
    covLow (w32 u1.cprint k) (w32 u2.cprint k ||| w32 a.cprint k))).sum
  let tail :=
    if cp_len < l1 then
      if cp_len < la then
        let cl := min l1 la
        (cl, ((List.range' l2 (cl - l2)).map (fun l =>
          covLow (w32 u1.cprint l) (w32 a.cprint l))).sum)
      else if cp_len < l2 then
        let cl := min l1 l2
        (cl, ((List.range' la (cl - la)).map (fun l =>
          covLow (w32 u1.cprint l) (w32 u2.cprint l))).sum)
      else (cp_len, 0)
    else (cp_len, 0)
  let diff_cp := d0 + tail.2
  let chroma : ℚ :=
    if 0 < tail.1 then (diff_cp : ℚ) / ((l1 : Nat) : ℚ) else 0
  clamp01 (fpComb fooid chroma)

/-- `fprint_same` (pgfprint.c): the reported result is `false` unless the
`cprint_len` fields agree, in which case it is `memcmp(...) != 0`, i.e.
TRUE when the full binary images DIFFER.  The `memcmp` covers every struct
field (header words, `r`, `dom`, `cprint`), which for the model is exactly
structure inequality once the lengths agree. -/
def fprint_same (key1 key2 : FPrintUnion) : Bool :=
  if key2.cprint.length = key1.cprint.length then decide (¬ key2 = key1)
  else false

/-! ### Text codec (fplib.c `fprint_to_string` / `fprint_from_string`)

Strings are modelled as `List Char`; the C NUL terminator corresponds to the
end of the list. -/

/-- Decimal digit character. -/
def digitChar (d : Nat) : Char := Char.ofNat (48 + d)

/-- Uppercase hexadecimal digit character, as produced by `%02X`. -/
def hexChar (d : Nat) : Char :=
  if d < 10 then Char.ofNat (48 + d) else Char.ofNat (55 + d)

/-- Decimal rendering of an unsigned 32-bit value, as `%u` prints it. -/
def utoa (n : Nat) : List Char :=
  if n = 0 then ['0'] else ((Nat.digits 10 n).map digitChar).reverse

/-- The two characters `%02X` prints for one byte. -/
def hexByte (b : Nat) : List Char := [hexChar (b / 16), hexChar (b % 16)]

/-- Decimal rendering of the signed value of a 32-bit pattern, as `%d`
prints an `int32_t` with that pattern. -/
def i32toa (p : Nat) : List Char :=
  if p < 2 ^ 31 then utoa p else '-' :: utoa (2 ^ 32 - p)

/-- The codeword section: `%d`-rendered codewords joined by single spaces
(the C code prints `"%d "` for each and then overwrites the final space with
the closing parenthesis). -/
def cprintBody : List Nat → List Char
  | [] => []
  | [v] => i32toa v
  | v :: rest => i32toa v ++ ' ' :: cprintBody rest

/-- `fprint_to_string` (fplib.c:1213): header `(%u,%u,%u,`, then `r` and
`dom` as uppercase hex, then the space-separated codewords and `)`.
`bit_rate` and `num_errors` are `int32_t` fields printed with `%u`, i.e. as
their 32-bit patterns, which is what the model stores. -/
def fprint_to_string (fp : FPrint) : List Char :=
  '(' :: (utoa fp.songlen ++ ',' :: (utoa fp.bit_rate ++ ',' ::
    (utoa fp.num_errors ++ ',' :: ((fp.r.flatMap hexByte) ++ ',' ::
      ((fp.dom.flatMap hexByte) ++ ',' ::
        (cprintBody fp.cprint ++ [')']))))))

/-- Decimal digit test, `'0' <= c && c <= '9'`. -/
def isDigitC (c : Char) : Bool := decide ('0' ≤ c) && decide (c ≤ '9')

/-- Hexadecimal digit test (what `sscanf %X` accepts). -/
def isHexC (c : Char) : Bool :=
  isDigitC c || (decide ('A' ≤ c) && decide (c ≤ 'F')) ||
    (decide ('a' ≤ c) && decide (c ≤ 'f'))

/-- Numeric value of a decimal digit character. -/
def digitVal (c : Char) : Nat := c.toNat - 48

/-- Numeric value of a hexadecimal digit character. -/
def hexVal (c : Char) : Nat :=
  if isDigitC c then c.toNat - 48
  else if decide ('a' ≤ c) then c.toNat - 87
  else c.toNat - 55

/-- Value of a list of decimal digit characters, most significant first. -/
def decValue (ds : List Char) : Nat :=
  ds.foldl (fun a c => a * 10 + digitVal c) 0

/-- One `%u` conversion: consume a maximal non-empty run of decimal digits.
This models the `sscanf(fp_str, "(%u,%u,%u,", ...)` header scan together
with the subsequent skip-to-third-comma resynchronisation, which coincide
with sequential parsing on every string `fprint_to_string` produces (no
leading white-space or signs, values below `2 ^ 32`). -/
def parseU (s : List Char) : Option (Nat × List Char) :=
  let ds := s.takeWhile isDigitC
  if ds.isEmpty then none else some (decValue ds, s.dropWhile isDigitC)

/-- Consume one expected literal character. -/
def expectC (c : Char) : List Char → Option (List Char)
  | [] => none
  | x :: rest => if x = c then some rest else none

/-- Read `n` bytes of two hex digits each.  The C code scans `r` in groups
of four bytes (`"%2hhX%2hhX%2hhX%2hhX"`, advancing 8 characters) and `dom`
in groups of two; on input where every byte is rendered as exactly two hex
digits — which `fprint_to_string` guarantees — that equals this per-byte
parse. -/
def parseHexBytes : Nat → List Char → Option (List Nat × List Char)
  | 0, s => some ([], s)
  | n + 1, c1 :: c2 :: rest =>
    if isHexC c1 && isHexC c2 then
      match parseHexBytes n rest with
      | some (bs, s2) => some ((hexVal c1 * 16 + hexVal c2) :: bs, s2)
      | none => none
    else none
  | _ + 1, [] => none
  | _ + 1, [_] => none

/-- `strtol(cpn_str, NULL, 10)` on the accumulated token: an optional
leading minus followed by decimal digits (`strtol` of the empty string or
a lone `"-"` is 0). -/
def strtolVal : List Char → Int
  | [] => 0
  | c :: ds => if c = '-' then -(decValue ds : Int) else (decValue (c :: ds) : Int)

/-- The `(int32_t)strtol(...)` store: the 32-bit pattern of the cast. -/
def int32pat (v : Int) : Nat := (v % 2 ^ 32).toNat

/-- The codeword scan loop of `fprint_from_string` (fplib.c:1373-1414).
State: remaining characters, accumulated token characters (`cpn_str`), and
the codewords stored so far (most recent first).  Per the C loop: a token of
12 or more characters is an error (checked before the current character is
examined); space and `)` terminate the current token through `strtol`; a
digit, or a minus at token start, is accumulated; anything else is an
error.  Reaching the NUL terminator ends the loop, dropping an unfinished
token, and the codewords stored so far become the record's `cprint`. -/
def parseCprint : List Char → List Char → List Nat → Option (List Nat)
  | [], _, acc => some acc.reverse
  | c :: rest, cpn, acc =>
    if 12 ≤ cpn.length then none
    else if c = ' ' then
      parseCprint rest [] (int32pat (strtolVal cpn) :: acc)
    else if c = ')' then
      some ((int32pat (strtolVal cpn) :: acc).reverse)
    else if isDigitC c || (cpn.isEmpty && c = '-') then
      parseCprint rest (cpn ++ [c]) acc
    else none

/-- `fprint_from_string` (fplib.c:1286): minimum-length check
(`11 + 2*R_SIZE + 2*DOM_SIZE`), header scan, 348 hex bytes of `r`, comma,
66 hex bytes of `dom`, comma, then the codeword loop. -/
def fprint_from_string (s : List Char) : Option FPrint :=
  if s.length < 11 + 2 * 348 + 2 * 66 then none
  else
    match expectC '(' s with
    | none => none
    | some s1 =>
      match parseU s1 with
      | none => none
      | some (songlen, s2) =>
        match expectC ',' s2 with
        | none => none
        | some s3 =>
          match parseU s3 with
          | none => none
          | some (bit_rate, s4) =>
            match expectC ',' s4 with
            | none => none
            | some s5 =>
              match parseU s5 with
              | none => none
              | some (num_errors, s6) =>
                match expectC ',' s6 with
                | none => none
                | some s7 =>
                  match parseHexBytes 348 s7 with
                  | none => none
                  | some (r, s8) =>
                    match expectC ',' s8 with
                    | none => none
                    | some s9 =>
                      match parseHexBytes 66 s9 with
                      | none => none
                      | some (dom, s10) =>
                        match expectC ',' s10 with
                        | none => none
                        | some s11 =>
                          match parseCprint s11 [] [] with
                          | none => none
                          | some cprint =>
                            some ⟨songlen, bit_rate, num_errors, r, dom, cprint⟩

/-! ### GiST picksplit (pgfprint.c `fprint_picksplit`), leaf-entry path

The model covers the `leaf_split == true` branch (the internal-key branch is
structurally identical with `FPrintUnion` readers).  Entries are the
`n_entries = maxoff` leaf records of the page, listed in offset order
(1-based page offsets `k + 1` for list position `k`); the result is the pair
of offset lists `(spl_left, spl_right)`.  The node keys the C code also
produces are tracked internally because the tie-breaking branch of the
assignment loop reads them through `try_match_merges`. -/

/-- `deserialize_fprint` (pgfprint.c:158): reject `cprint_len >= 100000` as
corrupt, otherwise re-slice to at most `MAX_KEY_CP_LEN = 240` codewords with
the window rule of `fprint_compress`: `[704, 944)` when `cprint_len >= 944`,
`[464, 704)` when `cprint_len >= 704`, else the prefix. -/
def deserialize_fprint (fp : FPrint) : Option FPrint :=
  if fp.cprint.length < 100000 then
    some { fp with cprint :=
      if 944 ≤ fp.cprint.length then (fp.cprint.drop 704).take 240
      else if 704 ≤ fp.cprint.length then (fp.cprint.drop 464).take 240
      else fp.cprint.take 240 }
  else none

/-- `check_union_size` (pgfprint.c:127): grow the union's `cprint` buffer to
`min(entry_len, MAX_KEY_CP_LEN)` when the incoming entry is longer.  The C
`realloc` leaves the newly exposed words uninitialised; the model zero-fills
them (the split assignment, which is what picksplit's balance contract is
about, does not depend on those words for the inputs considered here). -/
def check_union_size (u : FPrintUnion) (elen : Nat) : FPrintUnion :=
  let n := min elen 240
  if u.cprint.length < n then
    { u with cprint := u.cprint ++ List.replicate (n - u.cprint.length) 0 }
  else u

/-- The `ASSIGN_IX` macro body: grow the union, then `fprint_merge_one`. -/
def assign_merge (u : FPrintUnion) (e : FPrint) : FPrintUnion :=
  fprint_merge_one (check_union_size u e.cprint.length) e

/-- View a leaf record as the union key picksplit seeds a side with
(struct copy, then `min_songlen`/`max_songlen` overwritten). -/
def FPUnionOfFP (fp : FPrint) (mn mx : Nat) : FPrintUnion :=
  { min_songlen := mn, bit_rate := fp.bit_rate, max_songlen := mx,
    r := fp.r, dom := fp.dom, cprint := fp.cprint }

/-- The `Match` records of pgfprint.c's picksplit. -/
structure MatchRec where
  ix1 : Nat
  ix2 : Nat
  songlen_diff : Nat
  val : ℚ

instance : Inhabited MatchRec := ⟨⟨0, 0, 0, 0⟩⟩

/-- Ascending `qsort` order of `cmp_matches`: by `songlen_diff`, then by
`val`. -/
def matchLe (m1 m2 : MatchRec) : Bool :=
  decide (m1.songlen_diff < m2.songlen_diff) ||
    (decide (m1.songlen_diff = m2.songlen_diff) && decide (m1.val ≤ m2.val))

/-- Insert into a `matchLe`-sorted list. -/
def insertMatch (x : MatchRec) : List MatchRec → List MatchRec
  | [] => [x]
  | y :: ys => if matchLe x y then x :: y :: ys else y :: insertMatch x ys

/-- Sort by `cmp_matches`.  (C uses `qsort`, whose order on ties is
unspecified; this stable sort realises one admissible order, and the
properties proved below do not depend on the tie order.) -/
def sortMatches : List MatchRec → List MatchRec
  | [] => []
  | x :: xs => insertMatch x (sortMatches xs)

/-- The seed scan of the leaf branch (pgfprint.c:835-858): running
`min_songlen` / `max_songlen`, the offsets achieving them, and the
`allisequal` flag, cleared exactly when a strictly smaller minimum or
strictly larger maximum appears. -/
def seedScan (raw : List FPrint) : Nat × Nat × Nat × Nat × Bool :=
  match raw with
  | [] => (0, 0, 0, 0, true)
  | e0 :: rest =>
    let st := rest.foldl
      (fun (st : Nat × Nat × Nat × Nat × Bool × Nat) e =>
        if e.songlen < st.1 then
          (e.songlen, st.2.1, st.2.2.2.2.2, st.2.2.2.1, false, st.2.2.2.2.2 + 1)
        else if st.2.1 < e.songlen then
          (st.1, e.songlen, st.2.2.1, st.2.2.2.2.2, false, st.2.2.2.2.2 + 1)
        else
          (st.1, st.2.1, st.2.2.1, st.2.2.2.1, st.2.2.2.2.1, st.2.2.2.2.2 + 1))
      (e0.songlen, e0.songlen, 0, 0, true, 1)
    (st.1, st.2.1, st.2.2.1, st.2.2.2.1, st.2.2.2.2.1)

/-- The pairwise `match_cpfm` table of the all-equal leaf path
(pgfprint.c:972-984), in the loop's `(k, l)` order. -/
def pairMatches (raw : List FPrint) : List MatchRec :=
  let n := raw.length
  ((List.range n).map (fun k =>
    (List.range' (k + 1) (n - (k + 1))).map (fun l =>
      MatchRec.mk k l 0 (match_cpfm (raw.getD k default) (raw.getD l default))))).flatten

/-- The all-equal middle split (pgfprint.c:1034-1060): entry 1 seeds the
left page and entry `n` the right; entries `2 .. n-1` go left while their
0-based index is below `max_clust_sz = ceil(n / 2)`, else right.  (The C
code also folds each entry into the page keys; the keys do not influence
this path's assignment.) -/
def middleSplit (n : Nat) : List Nat × List Nat :=
  let maxClust := if n % 2 = 0 then n / 2 else n / 2 + 1
  let ks := List.range' 1 (n - 2)
  (1 :: (ks.filter (fun k => k < maxClust)).map (fun k => k + 1),
   n :: (ks.filter (fun k => ¬ k < maxClust)).map (fun k => k + 1))

/-- One iteration of the general-path assignment loop (pgfprint.c:1115-1151)
over a fold state `(left, right, fp_ul, fp_ur)`: skip the seeds; place an
entry on the side its `songlen` is strictly closer to; on a tie, compare the
two `try_match_merges` probes with the `WISH_F(n_left, n_right, 0.1)`
size-balancing term, then fall back to the smaller side. -/
def psStep (raw : List FPrint) (minS maxS seedL seedR : Nat)
    (st : List Nat × List Nat × FPrintUnion × FPrintUnion) (m : MatchRec) :
    List Nat × List Nat × FPrintUnion × FPrintUnion :=
  let k := m.ix1
  if k = seedL ∨ k = seedR then st
  else
    let e := raw.getD k default
    if e.songlen - minS < maxS - e.songlen then
      (st.1 ++ [k + 1], st.2.1, assign_merge st.2.2.1 e, st.2.2.2)
    else if maxS - e.songlen < e.songlen - minS then
      (st.1, st.2.1 ++ [k + 1], st.2.2.1, assign_merge st.2.2.2 e)
    else
      let tl := try_match_merges st.2.2.2 st.2.2.1 e
      let tr := try_match_merges st.2.2.1 st.2.2.2 e
      let wish : ℚ :=
        -(((st.1.length : ℚ) - (st.2.1.length : ℚ)) ^ 3) * 0.1
      if tl < tr + wish then
        (st.1 ++ [k + 1], st.2.1, assign_merge st.2.2.1 e, st.2.2.2)
      else if tr < tl then
        (st.1, st.2.1 ++ [k + 1], st.2.2.1, assign_merge st.2.2.2 e)
      else if st.1.length < st.2.1.length then
        (st.1 ++ [k + 1], st.2.1, assign_merge st.2.2.1 e, st.2.2.2)
      else
        (st.1, st.2.1 ++ [k + 1], st.2.2.1, assign_merge st.2.2.2 e)

/-- The general path (pgfprint.c:1069-1151): seed the two sides, build the
per-entry `Match` list against the seed unions, sort it, and run the
assignment loop. -/
def generalSplit (raw : List FPrint) (minS maxS seedL seedR : Nat) :
    List Nat × List Nat :=
  let fp1 := raw.getD seedL default
  let fp2 := raw.getD seedR default
  let ul0 := FPUnionOfFP fp1 minS minS
  let ur0 := FPUnionOfFP fp2 maxS maxS
  let ms := (List.range raw.length).map (fun k =>
    let e := raw.getD k default
    MatchRec.mk k 0 (min (e.songlen - minS) (maxS - e.songlen))
      (min (try_match_merges ur0 ul0 e) (try_match_merges ul0 ur0 e)))
  let res := (sortMatches ms).foldl (psStep raw minS maxS seedL seedR)
    ([seedL + 1], [seedR + 1], ul0, ur0)
  (res.1, res.2.1)

/-- `fprint_picksplit` (pgfprint.c:774), leaf-entry path.  Deserialisation
failure or a single-entry vector aborts (`elog(ERROR)`), modelled as `none`.
With two entries each seed takes one side.  With three or more: if every
`songlen` agreed, the pairwise table decides between the middle split and a
fall-through to the general path seeded by the most-different pair;
otherwise the general path runs with the extreme-`songlen` seeds. -/
def fprint_picksplit_leaves (entries : List FPrint) : Option (List Nat × List Nat) :=
  match entries.mapM deserialize_fprint with
  | none => none
  | some raw =>
    match raw with
    | [] => none
    | [_] => none
    | _ :: _ :: _ =>
      let n := raw.length
      let sc := seedScan raw
      let minS := sc.1
      let maxS := sc.2.1
      let seedL := sc.2.2.1
      let seedR := sc.2.2.2.1
      let allEq := sc.2.2.2.2
      if n < 3 then
        if allEq then some ([1], [2])
        else some ([seedL + 1], [seedR + 1])
      else
        if allEq then
          let pm := sortMatches (pairMatches raw)
          if (0.4 : ℚ) < (pm.getLastD default).val then
            some (generalSplit raw minS maxS
              (pm.headD default).ix1 (pm.headD default).ix2)
          else
            some (middleSplit n)
        else
          some (generalSplit raw minS maxS seedL seedR)

/-! ## Example records used by witnesses and counterexamples -/

/-- A small valid record (all-zero feature vectors, one codeword). -/
def exSelf : FPrint :=
  ⟨100, 0, 0, List.replicate 348 0, List.replicate 66 0, [1]⟩

/-- An all-zero union key with envelope `[100, 100]`. -/
def exU1 : FPrintUnion :=
  ⟨100, 0, 100, List.replicate 348 0, List.replicate 66 0, [0]⟩

/-- An all-ones union key with envelope `[100, 100]`. -/
def exU2 : FPrintUnion :=
  ⟨100, 0, 100, List.replicate 348 255, List.replicate 66 255, [0]⟩

/-- Same body as `exU1` with envelope `[5, 7]`. -/
def exU3 : FPrintUnion :=
  ⟨5, 0, 7, List.replicate 348 0, List.replicate 66 0, [0]⟩

/-! ## Helper lemmas -/

theorem byteRWeight_zero : byteRWeight 0 = 0 := by decide

theorem pop8_zero : pop8 0 = 0 := by decide

theorem cmp_low_bit_self (x : Nat) : cmp_low_bit x x = 1 := by
  simp [cmp_low_bit]

theorem cmp_low_bit_le_one (x y : Nat) : cmp_low_bit x y ≤ 1 := by
  unfold cmp_low_bit; split <;> simp

theorem zipWith_xor_self_sum_zero (f : Nat → Nat) (hf : f 0 = 0)
    (l : List Nat) : (List.zipWith (fun x y => f (x ^^^ y)) l l).sum = 0 := by
  induction l with
  | nil => rfl
  | cons x xs ih => simp [List.zipWith_cons_cons, Nat.xor_self, hf, ih]

theorem zipWith_cmp_self_sum (l : List Nat) :
    (List.zipWith cmp_low_bit l l).sum = l.length := by
  induction l with
  | nil => rfl
  | cons x xs ih =>
    simp only [List.zipWith_cons_cons, cmp_low_bit_self, List.sum_cons,
      List.length_cons, ih]
    omega

theorem sum_le_length_of_le_one (l : List Nat) (h : ∀ x ∈ l, x ≤ 1) :
    l.sum ≤ l.length := by
  induction l with
  | nil => simp
  | cons x xs ih =>
    have hx := h x (List.mem_cons_self x xs)
    have := ih (fun y hy => h y (List.mem_cons_of_mem x hy))
    simp only [List.sum_cons, List.length_cons]
    omega

theorem chromab_sum_le : ∀ cp1 cp2 : List Nat,
    (List.zipWith cmp_low_bit cp1 cp2).sum ≤ min cp1.length cp2.length
  | [], _ => by simp
  | _ :: _, [] => by simp
  | x :: xs, y :: ys => by
    have h1 := cmp_low_bit_le_one x y
    have h2 := chromab_sum_le xs ys
    simp only [List.zipWith_cons_cons, List.sum_cons, List.length_cons]
    omega

theorem match_fooid_fp_self (r d : List Nat) : match_fooid_fp r d r d = 1 := by
  simp only [match_fooid_fp,
    zipWith_xor_self_sum_zero byteRWeight byteRWeight_zero,
    zipWith_xor_self_sum_zero pop8 pop8_zero, clamp01]
  norm_num

theorem match_chromab_self (cp : List Nat) (h : cp ≠ []) :
    match_chromab cp cp = 1 := by
  have hlen : cp.length ≠ 0 := fun hc => h (List.length_eq_zero.mp hc)
  simp only [match_chromab, Nat.min_self, Nat.max_self, zipWith_cmp_self_sum]
  rw [if_neg hlen, if_neg hlen]
  rw [div_self]
  exact_mod_cast hlen

theorem clamp01_nonneg (v : ℚ) : 0 ≤ clamp01 v := le_max_right _ _

theorem clamp01_le_one (v : ℚ) : clamp01 v ≤ 1 :=
  max_le (min_le_right _ _) zero_le_one

theorem match_chromab_nonneg (cp1 cp2 : List Nat) : 0 ≤ match_chromab cp1 cp2 := by
  simp only [match_chromab]
  split
  · exact le_refl 0
  · split
    · exact le_refl 0
    · positivity

theorem match_chromab_le_one (cp1 cp2 : List Nat) : match_chromab cp1 cp2 ≤ 1 := by
  simp only [match_chromab]
  split
  · exact zero_le_one
  · split
    · exact zero_le_one
    · rename_i hmax hsm
      rw [div_le_one]
      · have h := chromab_sum_le cp1 cp2
        have h2 : min cp1.length cp2.length ≤ max cp1.length cp2.length :=
          le_trans (min_le_left _ _) (le_max_left _ _)
        exact_mod_cast le_trans h h2
      · have : min cp1.length cp2.length ≠ 0 := hmax
        have : 0 < max cp1.length cp2.length := by omega
        exact_mod_cast this

theorem fpComb_le (fm cp : ℚ) (hf1 : fm ≤ 1) (hc0 : 0 ≤ cp) (hc1 : cp ≤ 1) :
    fpComb fm cp ≤ 1249293 / 1248900 := by
  unfold fpComb
  rw [div_le_iff₀ (by norm_num : (0:ℚ) < 1.2489)]
  have key : 0 ≤ (1 - cp) * (1.592623 * (1 + cp + cp * cp) - 0.683234) := by
    apply mul_nonneg
    · linarith
    · nlinarith [mul_self_nonneg cp]
  nlinarith [key, hf1]

theorem fpComb_ge (fm cp : ℚ) (hf0 : 0 ≤ fm) (hc0 : 0 ≤ cp) (hc1 : cp ≤ 1) :
    -(606769 / 1248900 : ℚ) ≤ fpComb fm cp := by
  unfold fpComb
  rw [le_div_iff₀ (by norm_num : (0:ℚ) < 1.2489)]
  nlinarith [mul_nonneg (mul_nonneg hc0 hc0) hc0, hf0, hc1]

theorem match_cpfm_self (a : FPrint) (h : a.cprint ≠ []) :
    match_cpfm a a = 1249293 / 1248900 := by
  have hgate : ¬ (|(a.songlen : ℚ) - (a.songlen : ℚ)| >
      0.1 * min (a.songlen : ℚ) (a.songlen : ℚ)) := by
    simp only [sub_self, abs_zero, min_self, gt_iff_lt, not_lt]
    positivity
  simp only [match_cpfm]
  rw [if_neg hgate, match_fooid_fp_self, match_chromab_self a.cprint h]
  unfold fpComb
  norm_num

/-! ## C10 -/

/-- C10: `cmp_low_bit(0, 0) = 1`, and consequently two equal-length all-zero
`cprint` streams (length at least 1, e.g. the sentinel single zero codeword)
score exactly 1.0 under `match_chromab`. -/
theorem c10_cmp_low_bit_zero (n : Nat) (h : 1 ≤ n) :
    cmp_low_bit 0 0 = 1 ∧
    match_chromab (List.replicate n 0) (List.replicate n 0) = 1 := by
  refine ⟨rfl, match_chromab_self _ ?_⟩
  have : (List.replicate n 0).length = n := List.length_replicate n 0
  intro hnil
  rw [hnil] at this
  simp at this
  omega

/-- Witness for C10 at `n = 1`. -/
theorem c10_witness :
    1 ≤ 1 ∧ (cmp_low_bit 0 0 = 1 ∧
      match_chromab (List.replicate 1 0) (List.replicate 1 0) = 1) :=
  ⟨by decide, c10_cmp_low_bit_zero 1 (by decide)⟩

/-! ## C2 -/

/-- C2: a valid record compared with itself scores `1249293/1248900 ≥ 0.98`
under `match_cpfm`, and the EQ predicate (`val > 0.98`) holds. -/
theorem c2_self_match (a : FPrint) (h : validFP a) :
    (0.98 : ℚ) ≤ match_cpfm a a ∧ FP_ISEQ (match_cpfm a a) = true := by
  have hne : a.cprint ≠ [] := by
    have h1 := h.2.2.2.2.1
    intro hnil
    rw [hnil] at h1
    simp at h1
  rw [match_cpfm_self a hne]
  constructor
  · norm_num
  · simp only [FP_ISEQ, decide_eq_true_eq]
    norm_num

/-- Witness for C2 at a concrete valid record. -/
theorem c2_witness :
    (0.98 : ℚ) ≤ match_cpfm exSelf exSelf ∧
      FP_ISEQ (match_cpfm exSelf exSelf) = true :=
  c2_self_match exSelf (by decide)

/-! ## C1 -/

/-- C1 counterexample: `match_cpfm` does NOT clamp: at a valid record
compared with itself the returned value is `1249293/1248900 > 1`, so the
result is not confined to `[0, 1]` as claimed. -/
theorem c1_counterexample : validFP exSelf ∧ 1 < match_cpfm exSelf exSelf := by
  constructor
  · decide
  · rw [match_cpfm_self exSelf (by decide)]
    norm_num

/-- C1 (amended): `match_cpfm` returns the cubic combiner WITHOUT a final
clamp; for all records the value lies in
`[-606769/1248900, 1249293/1248900]` (so it can exceed 1, and can be
negative), rather than in `[0, 1]`. -/
theorem c1_match_cpfm_bounds (a b : FPrint) :
    -(606769 / 1248900 : ℚ) ≤ match_cpfm a b ∧
      match_cpfm a b ≤ 1249293 / 1248900 := by
  simp only [match_cpfm]
  split
  · constructor <;> norm_num
  · constructor
    · exact fpComb_ge _ _ (clamp01_nonneg _) (match_chromab_nonneg _ _)
        (match_chromab_le_one _ _)
    · exact fpComb_le _ _ (clamp01_le_one _) (match_chromab_nonneg _ _)
        (match_chromab_le_one _ _)

/-! ## C4 -/

/-- C4 (code bug): `fprint_same` reports `false` for two byte-identical node
keys (equal `cprint_len`, equal binary image) and `true` for equal-length
keys whose images differ — the `memcmp(...) != 0` result is returned
directly, inverting the claimed equality semantics. -/
theorem c4_fprint_same_inverted :
    fprint_same exU1 exU1 = false ∧ fprint_same exU1 exU3 = true := by
  constructor
  · simp [fprint_same]
  · decide

/-! ## C9 -/

/-- C9 (code bug): on `cp1 = cp2 = [3,0,0,0,1]` the source `match_chromat`
returns `1/3` while the documented Tanimoto computation
(`tdiff = Σ popcount(&)`, `tcomm = Σ popcount(|)`, here `3/3`, and `tdiff =
0 → 1` before any quotient) yields `1`: the unrolled loop strides its
`&`-reads and the remainder loop overwrites `tdiff` instead of adding. -/
theorem c9_chromat_mismatch :
    match_chromat [3, 0, 0, 0, 1] [3, 0, 0, 0, 1] = 1 / 3 ∧
      match_chromat_spec [3, 0, 0, 0, 1] [3, 0, 0, 0, 1] = 1 := by
  with_unfolding_all decide

/-! ## C5 -/

/-- C5 counterexample: `match_merges` is not symmetric.  With the all-zero
key `exU1` and the all-ones key `exU2` (overlapping envelopes),
`match_merges exU1 exU2 = 1` (every `exU1` bit is covered) but
`match_merges exU2 exU1 < 1` (no `exU2` feature bit is covered). -/
theorem c5_counterexample : match_merges exU1 exU2 ≠ match_merges exU2 exU1 := by
  with_unfolding_all decide

/-- C5 (amended): `match_merges` measures how well `u2` covers `u1`, so it is
symmetric only under extra hypotheses; when the two keys share the same body
(`r`, `dom`, `cprint`) the two orientations agree (the envelope
short-circuit is symmetric as well). -/
theorem c5_match_merges_symm (u1 u2 : FPrintUnion) (hr : u1.r = u2.r)
    (hd : u1.dom = u2.dom) (hc : u1.cprint = u2.cprint) :
    match_merges u1 u2 = match_merges u2 u1 := by
  unfold match_merges
  by_cases h : u1.max_songlen < u2.min_songlen ∨ u2.max_songlen < u1.min_songlen
  · rw [if_pos h, if_pos (Or.symm h)]
  · rw [if_neg h, if_neg (fun hc2 => h (Or.symm hc2)), hr, hd, hc]

/-- Witness for C5 (amended) at two same-body keys with different
envelopes. -/
theorem c5_witness : match_merges exU1 exU3 = match_merges exU3 exU1 :=
  c5_match_merges_symm exU1 exU3 rfl rfl rfl

/-! ## Bitwise coverage lemmas for C6 / C7 -/

theorem nat_and_or_self (x y : Nat) : x &&& (y ||| x) = x := by
  apply Nat.eq_of_testBit_eq
  intro i
  simp only [Nat.testBit_and, Nat.testBit_or]
  cases x.testBit i <;> cases y.testBit i <;> rfl

theorem nat_or_covered (x y : Nat) (h : y &&& x = y) : x ||| y = x := by
  apply Nat.eq_of_testBit_eq
  intro i
  have hb := congrArg (fun z => z.testBit i) h
  simp only [Nat.testBit_and] at hb
  simp only [Nat.testBit_or]
  cases hx : x.testBit i <;> cases hy : y.testBit i <;> simp_all

theorem zipWith_and_or (la lu : List Nat) (h : lu.length = la.length) :
    List.zipWith (fun x y => x &&& y) la
      (List.zipWith (fun x y => x ||| y) lu la) = la := by
  induction la generalizing lu with
  | nil => simp
  | cons x xs ih =>
    cases lu with
    | nil => simp at h
    | cons u us =>
      simp only [List.zipWith_cons_cons, List.cons.injEq]
      exact ⟨nat_and_or_self x u, ih us (by simpa using h)⟩

theorem zipWith_or_covered (lu la : List Nat) (hlen : lu.length = la.length)
    (h : List.zipWith (fun x y => x &&& y) la lu = la) :
    List.zipWith (fun x y => x ||| y) lu la = lu := by
  induction lu generalizing la with
  | nil => simp
  | cons u us ih =>
    cases la with
    | nil => simp at hlen
    | cons x xs =>
      simp only [List.zipWith_cons_cons, List.cons.injEq] at h ⊢
      exact ⟨nat_or_covered u x h.1, ih xs (by simpa using hlen) h.2⟩

theorem orInto_cover : ∀ (lu la : List Nat), la.length ≤ lu.length →
    ∀ k, k < la.length →
      la.getD k 0 &&& (orInto lu la).getD k 0 = la.getD k 0
  | lu, [], _, k, hk => by simp at hk
  | [], _ :: _, h, k, hk => by simp at h
  | u :: us, y :: ys, h, 0, hk => by
    simpa [orInto] using nat_and_or_self y u
  | u :: us, y :: ys, h, k + 1, hk => by
    have := orInto_cover us ys (by simpa using h) k (by simpa using hk)
    simpa [orInto] using this

theorem orInto_covered : ∀ (lu la : List Nat), la.length ≤ lu.length →
    (∀ k, k < la.length → la.getD k 0 &&& lu.getD k 0 = la.getD k 0) →
    orInto lu la = lu
  | lu, [], _, _ => by cases lu <;> rfl
  | [], _ :: _, h, _ => by simp at h
  | u :: us, y :: ys, h, hcov => by
    have h0 := hcov 0 (by simp)
    simp only [List.getD_cons_zero] at h0
    have ht := orInto_covered us ys (by simpa using h)
      (fun k hk => by simpa using hcov (k + 1) (by simpa using hk))
    simp [orInto, nat_or_covered u y h0, ht]

/-! ## C6 -/

/-- C6: after `fprint_merge_one(u, a)` (with `u`'s buffer at least as long
as `a`'s, as the index arranges via `check_union_size`), every `r` and `dom`
byte of `a` is covered by the merged key, the `cprint` prefix of length
`|a.cprint|` OR-covers `a.cprint`, and the `songlen` envelope contains
`a.songlen`. -/
theorem c6_merge_one_coverage (u : FPrintUnion) (a : FPrint)
    (hr : u.r.length = a.r.length) (hd : u.dom.length = a.dom.length)
    (hcp : a.cprint.length ≤ u.cprint.length) :
    List.zipWith (fun x y => x &&& y) a.r (fprint_merge_one u a).r = a.r ∧
    List.zipWith (fun x y => x &&& y) a.dom (fprint_merge_one u a).dom = a.dom ∧
    (∀ k, k < a.cprint.length →
      a.cprint.getD k 0 &&& (fprint_merge_one u a).cprint.getD k 0 =
        a.cprint.getD k 0) ∧
    (fprint_merge_one u a).min_songlen ≤ a.songlen ∧
    a.songlen ≤ (fprint_merge_one u a).max_songlen := by
  refine ⟨zipWith_and_or a.r u.r hr, zipWith_and_or a.dom u.dom hd,
    orInto_cover u.cprint a.cprint hcp, ?_, le_max_right _ _⟩
  simp only [fprint_merge_one]
  split
  · exact min_le_right _ _
  · exact le_refl _

/-- Witness for C6 at a concrete union key and record. -/
theorem c6_witness :
    List.zipWith (fun x y => x &&& y) exSelf.r (fprint_merge_one exU1 exSelf).r
        = exSelf.r ∧
    List.zipWith (fun x y => x &&& y) exSelf.dom
        (fprint_merge_one exU1 exSelf).dom = exSelf.dom ∧
    (∀ k, k < exSelf.cprint.length →
      exSelf.cprint.getD k 0 &&& (fprint_merge_one exU1 exSelf).cprint.getD k 0 =
        exSelf.cprint.getD k 0) ∧
    (fprint_merge_one exU1 exSelf).min_songlen ≤ exSelf.songlen ∧
    exSelf.songlen ≤ (fprint_merge_one exU1 exSelf).max_songlen :=
  c6_merge_one_coverage exU1 exSelf (by decide) (by decide) (by decide)

/-! ## C7 -/

/-- An all-zero union key with envelope `[0, 5]`: its `min_songlen` is 0. -/
def exU0 : FPrintUnion :=
  ⟨0, 0, 5, List.replicate 348 0, List.replicate 66 0, [0]⟩

/-- An all-zero record with `songlen = 5`. -/
def exA5 : FPrint :=
  ⟨5, 0, 0, List.replicate 348 0, List.replicate 66 0, [0]⟩

/-- C7 counterexample: `exU0` covers `exA5` (bitwise coverage and
`min_songlen = 0 ≤ 5 = songlen ≤ max_songlen` hold), yet
`fprint_merge_one exU0 exA5 ≠ exU0`: because `u.min_songlen = 0`, the merge
rewrites `min_songlen` to `a.songlen = 5`. -/
theorem c7_counterexample :
    (List.zipWith (fun x y => x &&& y) exA5.r exU0.r = exA5.r) ∧
    (List.zipWith (fun x y => x &&& y) exA5.dom exU0.dom = exA5.dom) ∧
    exA5.cprint.length ≤ exU0.cprint.length ∧
    (∀ k, k < exA5.cprint.length →
      exA5.cprint.getD k 0 &&& exU0.cprint.getD k 0 = exA5.cprint.getD k 0) ∧
    exU0.min_songlen ≤ exA5.songlen ∧ exA5.songlen ≤ exU0.max_songlen ∧
    fprint_merge_one exU0 exA5 ≠ exU0 := by decide

/-- C7 (amended): merging a record already covered by the key leaves every
field of the key unchanged, PROVIDED the key's `min_songlen` is positive
(when `min_songlen = 0` the merge overwrites it with `a.songlen`). -/
theorem c7_merge_one_idem (u : FPrintUnion) (a : FPrint)
    (hrlen : u.r.length = a.r.length)
    (hr : List.zipWith (fun x y => x &&& y) a.r u.r = a.r)
    (hdlen : u.dom.length = a.dom.length)
    (hd : List.zipWith (fun x y => x &&& y) a.dom u.dom = a.dom)
    (hcplen : a.cprint.length ≤ u.cprint.length)
    (hcp : ∀ k, k < a.cprint.length →
      a.cprint.getD k 0 &&& u.cprint.getD k 0 = a.cprint.getD k 0)
    (hmin : u.min_songlen ≤ a.songlen) (hmax : a.songlen ≤ u.max_songlen)
    (hpos : 0 < u.min_songlen) :
    fprint_merge_one u a = u := by
  have hrr : List.zipWith (fun x y => x ||| y) u.r a.r = u.r :=
    zipWith_or_covered u.r a.r hrlen hr
  have hdd : List.zipWith (fun x y => x ||| y) u.dom a.dom = u.dom :=
    zipWith_or_covered u.dom a.dom hdlen hd
  have hcc : orInto u.cprint a.cprint = u.cprint :=
    orInto_covered u.cprint a.cprint hcplen hcp
  simp only [fprint_merge_one, hrr, hdd, hcc, if_pos hpos,
    min_eq_left hmin, max_eq_left hmax]

/-- Witness for C7 (amended) at a concrete covered pair with positive
`min_songlen`. -/
theorem c7_witness : fprint_merge_one exU3 exA5 = exU3 :=
  c7_merge_one_idem exU3 exA5 (by decide) (by decide) (by decide) (by decide)
    (by decide) (by decide) (by decide) (by decide) (by decide)

/-! ## Codec lemmas for C3 -/

theorem digitVal_digitChar (d : Nat) (h : d < 10) :
    digitVal (digitChar d) = d := by
  interval_cases d <;> decide

theorem isDigitC_digitChar (d : Nat) (h : d < 10) :
    isDigitC (digitChar d) = true := by
  interval_cases d <;> decide

theorem utoa_all_digits (n : Nat) : ∀ c ∈ utoa n, isDigitC c = true := by
  intro c hc
  unfold utoa at hc
  split at hc
  · simp only [List.mem_singleton] at hc
    subst hc
    decide
  · rw [List.mem_reverse, List.mem_map] at hc
    obtain ⟨d, hd, rfl⟩ := hc
    exact isDigitC_digitChar d (Nat.digits_lt_base (by norm_num) hd)

theorem utoa_ne_nil (n : Nat) : utoa n ≠ [] := by
  unfold utoa
  split
  · simp
  · rename_i hn
    simp only [ne_eq, List.reverse_eq_nil_iff, List.map_eq_nil_iff]
    exact Nat.digits_ne_nil_iff_ne_zero.mpr hn

theorem foldl_decValue (ds : List Nat) (acc : Nat) (h : ∀ d ∈ ds, d < 10) :
    ((ds.map digitChar).reverse).foldl (fun a c => a * 10 + digitVal c) acc =
      acc * 10 ^ ds.length + Nat.ofDigits 10 ds := by
  induction ds generalizing acc with
  | nil => simp [Nat.ofDigits]
  | cons d tl ih =>
    have hd : d < 10 := h d (List.mem_cons_self d tl)
    have htl : ∀ x ∈ tl, x < 10 := fun x hx => h x (List.mem_cons_of_mem d hx)
    simp only [List.map_cons, List.reverse_cons, List.foldl_append,
      List.foldl_cons, List.foldl_nil, ih acc htl, Nat.ofDigits_cons,
      digitVal_digitChar d hd, List.length_cons]
    ring

theorem decValue_utoa (n : Nat) : decValue (utoa n) = n := by
  unfold utoa decValue
  split
  · rename_i hn
    subst hn
    decide
  · rename_i hn
    rw [foldl_decValue _ 0 (fun d hd => Nat.digits_lt_base (by norm_num) hd)]
    simp [Nat.ofDigits_digits]

theorem utoa_len10 (n : Nat) (h : n < 2 ^ 32) : (utoa n).length ≤ 10 := by
  unfold utoa
  split
  · simp
  · rename_i hn
    rw [List.length_reverse, List.length_map]
    rw [Nat.digits_len 10 n (by norm_num) hn]
    have : Nat.log 10 n < 10 :=
      Nat.log_lt_of_lt_pow hn (lt_of_lt_of_le h (by norm_num))
    omega

theorem isDigitC_ne_special (c : Char) (h : isDigitC c = true) :
    c ≠ ' ' ∧ c ≠ ')' ∧ c ≠ ',' ∧ c ≠ '-' := by
  refine ⟨?_, ?_, ?_, ?_⟩ <;> (intro hc; subst hc; exact absurd h (by decide))

theorem takeWhile_digits (l rest : List Char)
    (h : ∀ c ∈ l, isDigitC c = true) :
    (l ++ ',' :: rest).takeWhile isDigitC = l ∧
      (l ++ ',' :: rest).dropWhile isDigitC = ',' :: rest := by
  have hcomma : isDigitC ',' = false := by decide
  induction l with
  | nil => constructor <;> simp [List.takeWhile, List.dropWhile, hcomma]
  | cons c tl ih =>
    have hc : isDigitC c = true := h c (List.mem_cons_self c tl)
    have ihtl := ih (fun x hx => h x (List.mem_cons_of_mem c hx))
    simp only [List.cons_append, List.takeWhile_cons, List.dropWhile_cons, hc,
      if_true, ihtl.1, ihtl.2, and_self, List.cons.injEq, true_and]

theorem parseU_round (n : Nat) (rest : List Char) :
    parseU (utoa n ++ ',' :: rest) = some (n, ',' :: rest) := by
  have h := takeWhile_digits (utoa n) rest (utoa_all_digits n)
  unfold parseU
  rw [h.1, h.2]
  rw [if_neg (by simpa using utoa_ne_nil n)]
  rw [decValue_utoa]

theorem expectC_self (c : Char) (rest : List Char) :
    expectC c (c :: rest) = some rest := by
  simp [expectC]

theorem isHexC_hexChar (d : Nat) (h : d < 16) : isHexC (hexChar d) = true := by
  interval_cases d <;> decide

theorem hexVal_hexChar (d : Nat) (h : d < 16) : hexVal (hexChar d) = d := by
  interval_cases d <;> decide

theorem parseHexBytes_round (bs : List Nat) (hb : ∀ b ∈ bs, b < 256) :
    ∀ rest, parseHexBytes bs.length (bs.flatMap hexByte ++ rest) =
      some (bs, rest) := by
  induction bs with
  | nil => intro rest; simp [parseHexBytes]
  | cons b tl ih =>
    intro rest
    have hb0 : b < 256 := hb b (List.mem_cons_self b tl)
    have htl := ih (fun x hx => hb x (List.mem_cons_of_mem b hx))
    have hdiv : b / 16 < 16 := by omega
    have hmod : b % 16 < 16 := by omega
    have hstep : (b :: tl).flatMap hexByte ++ rest =
        hexChar (b / 16) :: hexChar (b % 16) :: (tl.flatMap hexByte ++ rest) := by
      simp [hexByte]
    rw [List.length_cons, hstep]
    simp only [parseHexBytes, isHexC_hexChar _ hdiv, isHexC_hexChar _ hmod,
      Bool.and_self, if_true, htl rest]
    have hb2 : hexVal (hexChar (b / 16)) * 16 + hexVal (hexChar (b % 16)) = b := by
      rw [hexVal_hexChar _ hdiv, hexVal_hexChar _ hmod]
      omega
    rw [hb2]

theorem strtolVal_digits (t : List Char) (h : ∀ c ∈ t, isDigitC c = true) :
    strtolVal t = (decValue t : Int) := by
  cases t with
  | nil => rfl
  | cons c ds =>
    have hc := (isDigitC_ne_special c (h c (List.mem_cons_self c ds))).2.2.2
    simp [strtolVal, hc]

theorem strtolVal_neg (ds : List Char) :
    strtolVal ('-' :: ds) = -(decValue ds : Int) := by
  simp [strtolVal]

theorem int32pat_i32toa (p : Nat) (hp : p < 2 ^ 32) :
    int32pat (strtolVal (i32toa p)) = p := by
  unfold i32toa
  split
  · rw [strtolVal_digits _ (utoa_all_digits p), decValue_utoa]
    unfold int32pat
    omega
  · rw [strtolVal_neg, decValue_utoa]
    unfold int32pat
    rename_i hge
    push_neg at hge
    omega

theorem i32toa_len (p : Nat) (hp : p < 2 ^ 32) : (i32toa p).length ≤ 11 := by
  unfold i32toa
  split
  · exact le_trans (utoa_len10 p hp) (by norm_num)
  · rw [List.length_cons]
    have : (utoa (2 ^ 32 - p)).length ≤ 10 := utoa_len10 _ (by omega)
    omega

theorem parseCprint_digits (ds : List Char) :
    ∀ (rest cpn : List Char) (acc : List Nat),
      (∀ c ∈ ds, isDigitC c = true) → cpn.length + ds.length ≤ 12 →
      parseCprint (ds ++ rest) cpn acc = parseCprint rest (cpn ++ ds) acc := by
  induction ds with
  | nil => intro rest cpn acc _ _; simp
  | cons c tl ih =>
    intro rest cpn acc h hlen
    have hc : isDigitC c = true := h c (List.mem_cons_self c tl)
    have hsp := isDigitC_ne_special c hc
    have hcl : ¬ 12 ≤ cpn.length := by
      simp only [List.length_cons] at hlen
      omega
    simp only [List.cons_append, parseCprint, if_neg hcl, if_neg hsp.1,
      if_neg hsp.2.1, hc, Bool.true_or, if_true, List.append_eq]
    rw [ih rest (cpn ++ [c]) acc (fun x hx => h x (List.mem_cons_of_mem c hx))
      (by simp only [List.length_append, List.length_cons, List.length_nil] at hlen ⊢; omega)]
    rw [List.append_assoc]
    rfl

theorem parseCprint_consume (p : Nat) (hp : p < 2 ^ 32) (rest : List Char)
    (acc : List Nat) :
    parseCprint (i32toa p ++ rest) [] acc = parseCprint rest (i32toa p) acc := by
  by_cases hlt : p < 2 ^ 31
  · have hd : i32toa p = utoa p := by unfold i32toa; rw [if_pos hlt]
    rw [hd]
    exact parseCprint_digits (utoa p) rest [] acc (utoa_all_digits p)
      (by have := utoa_len10 p hp; simpa using by omega)
  · have hd : i32toa p = '-' :: utoa (2 ^ 32 - p) := by
      unfold i32toa; rw [if_neg hlt]
    rw [hd]
    simp only [List.cons_append, parseCprint, List.length_nil,
      List.isEmpty_nil, if_neg (by decide : ¬ (12:Nat) ≤ 0),
      if_neg (by decide : ¬ (('-' : Char) = ' ')),
      if_neg (by decide : ¬ (('-' : Char) = ')')),
      show isDigitC '-' = false by decide, Bool.false_or, Bool.true_and,
      decide_eq_true_eq, if_pos (rfl : ('-' : Char) = '-'), List.append_eq,
      List.nil_append]
    rw [parseCprint_digits (utoa (2 ^ 32 - p)) rest ['-'] acc
      (utoa_all_digits _)
      (by
        have h10 := utoa_len10 (2 ^ 32 - p) (by omega)
        simp only [List.length_cons, List.length_nil]
        omega)]
    rfl

theorem parseCprint_close (p : Nat) (hp : p < 2 ^ 32) (rest : List Char)
    (acc : List Nat) :
    parseCprint (')' :: rest) (i32toa p) acc = some ((p :: acc).reverse) := by
  have hl : ¬ 12 ≤ (i32toa p).length := by
    have := i32toa_len p hp
    omega
  simp only [parseCprint, if_true]
  rw [int32pat_i32toa p hp, if_neg hl]
  simp

theorem parseCprint_space (p : Nat) (hp : p < 2 ^ 32) (rest : List Char)
    (acc : List Nat) :
    parseCprint (' ' :: rest) (i32toa p) acc =
      parseCprint rest [] (p :: acc) := by
  have hl : ¬ 12 ≤ (i32toa p).length := by
    have := i32toa_len p hp
    omega
  simp only [parseCprint, if_true]
  rw [int32pat_i32toa p hp, if_neg hl]

theorem parseCprint_body (cps : List Nat) (hb : ∀ v ∈ cps, v < 2 ^ 32) :
    cps ≠ [] → ∀ acc : List Nat,
      parseCprint (cprintBody cps ++ [')']) [] acc =
        some (acc.reverse ++ cps) := by
  induction cps with
  | nil => intro hne; exact absurd rfl hne
  | cons v tl ih =>
    intro _ acc
    have hv : v < 2 ^ 32 := hb v (List.mem_cons_self v tl)
    cases tl with
    | nil =>
      show parseCprint (i32toa v ++ [')']) [] acc = _
      rw [parseCprint_consume v hv, parseCprint_close v hv]
      simp
    | cons w ws =>
      have htl := ih (fun x hx => hb x (List.mem_cons_of_mem v hx))
        (by simp) (v :: acc)
      show parseCprint ((i32toa v ++ ' ' :: cprintBody (w :: ws)) ++ [')'])
          [] acc = _
      rw [List.append_assoc, parseCprint_consume v hv, List.cons_append,
        parseCprint_space v hv, htl]
      simp

theorem flatMap_hexByte_len (bs : List Nat) :
    (bs.flatMap hexByte).length = 2 * bs.length := by
  induction bs with
  | nil => simp
  | cons b tl ih => simp [hexByte, ih]; ring

theorem cprintBody_len_pos (cps : List Nat) (h : cps ≠ []) :
    1 ≤ (cprintBody cps).length := by
  cases cps with
  | nil => exact absurd rfl h
  | cons v tl =>
    cases tl with
    | nil =>
      show 1 ≤ (i32toa v).length
      unfold i32toa
      split
      · have := utoa_ne_nil v
        cases hu : utoa v with
        | nil => exact absurd hu this
        | cons a l => simp [hu]
      · simp
    | cons w ws =>
      show 1 ≤ (i32toa v ++ ' ' :: cprintBody (w :: ws)).length
      simp only [List.length_append, List.length_cons]
      omega

theorem utoa_len_pos (n : Nat) : 1 ≤ (utoa n).length := by
  have := utoa_ne_nil n
  cases hu : utoa n with
  | nil => exact absurd hu this
  | cons a l => simp [hu]

theorem to_string_not_short (fp : FPrint) (hr : fp.r.length = 348)
    (hd : fp.dom.length = 66) (hcp : fp.cprint ≠ []) :
    ¬ (fprint_to_string fp).length < 11 + 2 * 348 + 2 * 66 := by
  have h1 := utoa_len_pos fp.songlen
  have h2 := utoa_len_pos fp.bit_rate
  have h3 := utoa_len_pos fp.num_errors
  have h4 := flatMap_hexByte_len fp.r
  have h5 := flatMap_hexByte_len fp.dom
  have h6 := cprintBody_len_pos fp.cprint hcp
  simp only [fprint_to_string, List.length_cons, List.length_append, h4, h5,
    hr, hd]
  omega

/-! ## C3 -/

/-- C3: for every valid record (348 `r` bytes, 66 `dom` bytes, at least one
codeword, 32-bit fields), parsing the text form gives back the record
byte-for-byte: header fields, `r`, `dom` and `cprint` (including codewords
whose 32-bit pattern encodes a negative `int32_t`). -/
theorem c3_roundtrip (fp : FPrint) (h : validFP fp) :
    fprint_from_string (fprint_to_string fp) = some fp := by
  obtain ⟨hr, hrB, hd, hdB, hcp, hcpB, _, _, _⟩ := h
  have hne : fp.cprint ≠ [] := by
    intro hnil
    rw [hnil] at hcp
    simp at hcp
  have hR := parseHexBytes_round fp.r hrB
  rw [hr] at hR
  have hD := parseHexBytes_round fp.dom hdB
  rw [hd] at hD
  have hC := parseCprint_body fp.cprint hcpB hne
  unfold fprint_from_string
  rw [if_neg (to_string_not_short fp hr hd hne)]
  simp only [fprint_to_string, expectC_self, parseU_round, hR, hD, hC,
    List.reverse_nil, List.nil_append]

/-- A concrete valid record with a negative codeword
(`4294967291 = 2^32 - 5`, printed as `-5`). -/
def exRT : FPrint :=
  ⟨3, 4294967290, 7, List.replicate 348 171, List.replicate 66 5, [4294967291, 12]⟩

/-- Witness for C3 at `exRT`. -/
theorem c3_witness : fprint_from_string (fprint_to_string exRT) = some exRT :=
  c3_roundtrip exRT (by decide)

/-! ## C8 -/

/-- All-zero leaf record with the given `songlen`. -/
def exPS (s : Nat) : FPrint :=
  ⟨s, 0, 0, List.replicate 348 0, List.replicate 66 0, [0]⟩

/-- Four leaf entries with songlens 10, 0, 10, 10. -/
def ex4 : List FPrint := [exPS 10, exPS 0, exPS 10, exPS 10]

/-- C8 counterexample: on four entries with songlens `10, 0, 10, 10` the
general path seeds the left page with entry 2 (smallest `songlen`) and the
right with entry 1, and then sends entries 3 and 4 right because their
`songlen` is strictly closer to the maximum: the split is 1 / 3, so with
`n = 4` the left side receives fewer than 2 entries. -/
theorem c8_counterexample :
    ex4.length = 4 ∧
      fprint_picksplit_leaves ex4 = some ([2], [1, 3, 4]) ∧
      ([2] : List Nat).length < 2 := by
  refine ⟨rfl, ?_, by decide⟩
  with_unfolding_all decide

theorem psStep_preserve (raw : List FPrint) (minS maxS seedL seedR : Nat)
    (st : List Nat × List Nat × FPrintUnion × FPrintUnion) (m : MatchRec)
    (h1 : st.1 ≠ []) (h2 : st.2.1 ≠ []) :
    (psStep raw minS maxS seedL seedR st m).1 ≠ [] ∧
      (psStep raw minS maxS seedL seedR st m).2.1 ≠ [] := by
  simp only [psStep]
  split_ifs <;> simp_all

theorem foldl_psStep_preserve (raw : List FPrint)
    (minS maxS seedL seedR : Nat) (ms : List MatchRec) :
    ∀ st : List Nat × List Nat × FPrintUnion × FPrintUnion,
      st.1 ≠ [] → st.2.1 ≠ [] →
      (ms.foldl (psStep raw minS maxS seedL seedR) st).1 ≠ [] ∧
        (ms.foldl (psStep raw minS maxS seedL seedR) st).2.1 ≠ [] := by
  induction ms with
  | nil => intro st h1 h2; exact ⟨h1, h2⟩
  | cons m ms ih =>
    intro st h1 h2
    have h := psStep_preserve raw minS maxS seedL seedR st m h1 h2
    exact ih _ h.1 h.2

theorem generalSplit_nonempty (raw : List FPrint) (minS maxS sl sr : Nat) :
    (generalSplit raw minS maxS sl sr).1 ≠ [] ∧
      (generalSplit raw minS maxS sl sr).2 ≠ [] := by
  simp only [generalSplit]
  exact foldl_psStep_preserve raw minS maxS sl sr _ _ (by simp) (by simp)

theorem middleSplit_nonempty (n : Nat) :
    (middleSplit n).1 ≠ [] ∧ (middleSplit n).2 ≠ [] := by
  simp [middleSplit]

/-- C8 (amended): whenever `fprint_picksplit_leaves` succeeds (in particular
for every deserialisable vector with `n ≥ 2`), both output sides receive at
least one entry.  The stronger claim — at least two entries per side when
`n ≥ 4` — is false (see the counterexample). -/
theorem c8_both_sides_nonempty (entries : List FPrint) (L R : List Nat)
    (h : fprint_picksplit_leaves entries = some (L, R)) :
    L ≠ [] ∧ R ≠ [] := by
  unfold fprint_picksplit_leaves at h
  split at h
  · exact absurd h (by simp)
  · rename_i raw heq
    split at h
    · exact absurd h (by simp)
    · exact absurd h (by simp)
    · rename_i e0 e1 tl
      simp only at h
      split at h
      · split at h
        · simp only [Option.some.injEq] at h
          injection h with h1 h2
          subst h1
          subst h2
          exact ⟨by simp, by simp⟩
        · simp only [Option.some.injEq] at h
          injection h with h1 h2
          subst h1
          subst h2
          exact ⟨by simp, by simp⟩
      · split at h
        · split at h
          · simp only [Option.some.injEq] at h
            have hg := generalSplit_nonempty (e0 :: e1 :: tl)
              (seedScan (e0 :: e1 :: tl)).1 (seedScan (e0 :: e1 :: tl)).2.1
              (((sortMatches (pairMatches (e0 :: e1 :: tl))).headD default).ix1)
              (((sortMatches (pairMatches (e0 :: e1 :: tl))).headD default).ix2)
            rw [h] at hg
            exact hg
          · simp only [Option.some.injEq] at h
            have hg := middleSplit_nonempty (e0 :: e1 :: tl).length
            rw [h] at hg
            exact hg
        · simp only [Option.some.injEq] at h
          have hg := generalSplit_nonempty (e0 :: e1 :: tl)
            (seedScan (e0 :: e1 :: tl)).1 (seedScan (e0 :: e1 :: tl)).2.1
            (seedScan (e0 :: e1 :: tl)).2.2.1
            (seedScan (e0 :: e1 :: tl)).2.2.2.1
          rw [h] at hg
          exact hg

/-- Witness for C8 (amended), applying the theorem at the four-entry split
of the counterexample input. -/
theorem c8_witness : ([2] : List Nat) ≠ [] ∧ ([1, 3, 4] : List Nat) ≠ [] :=
  c8_both_sides_nonempty ex4 [2] [1, 3, 4] (by with_unfolding_all decide)

end MusicFP
